import Mathlib

/- Verification development for the Bitcoin Satoshi Tracer repository.

   The React frontend (`src/frontend/src/App.js`, the enhanced `App.js`,
   `TreeGraph.js`, `AddressModal.js`) is embedded directly from the source.
   The Python backend (traversal engine, cycle detector, risk scorer) is not
   part of the source tree; where a claim depends on it, the component is
   modelled from the specification, and each such definition is marked
   `Modelled from the spec`. -/

/-- An `OutputRef` identifies a transaction output by transaction id and
output index (spec §3). -/
structure OutputRef where
  txid : String
  index : Nat
deriving DecidableEq

/-- A trace step as delivered by a `trace_update` socket event: the payload
fields that `App.js` reads (`step.txid`, `step.vout`). -/
structure Step where
  txid : String
  vout : Nat
deriving DecidableEq

/-- `App.js`: the node key string, built as `txid:vout` by template literal. -/
def stepKey (s : Step) : String :=
  s.txid ++ ":" ++ toString s.vout

/-- The `(txid, vout)` pair of a step, used for duplicate statements. -/
def stepPairKey (s : Step) : String × Nat :=
  (s.txid, s.vout)

/-- The `OutputRef` denoted by a step. -/
def stepRef (s : Step) : OutputRef :=
  ⟨s.txid, s.vout⟩

/-- A link of the frontend graph as pushed by the `trace_update` handler. -/
structure Link where
  source : String
  target : String
  id : String
deriving DecidableEq

/-- The frontend `treeData` component state. -/
structure TreeData where
  nodes : List Step
  links : List Link
deriving DecidableEq

/-- `App.js` `trace_update` handler: the link pushed for a new `step` when the
previous last node was `last`. -/
def mkLink (last step : Step) : Link :=
  ⟨stepKey last, stepKey step, stepKey last ++ "-" ++ stepKey step⟩

/-- The `trace_update` handler of `src/frontend/src/App.js` (lines 48-66,
identical in the enhanced `App.js`): append the step to `nodes` and, when a
previous node exists, push a link from that previous node to the new step. -/
def traceUpdate (prev : TreeData) (step : Step) : TreeData :=
  { nodes := prev.nodes ++ [step]
  , links := prev.links ++
      (match prev.nodes.getLast? with
       | some last => [mkLink last step]
       | none => []) }

/-- Folding the `trace_update` handler over a whole stream of steps, starting
from the empty `treeData` state that `startTrace` resets to. -/
def processTrace (steps : List Step) : TreeData :=
  steps.foldl traceUpdate ⟨[], []⟩

/-- The list of links the handler produces for a stream of steps, given the
node that was last in the list before the stream (if any). -/
def linkChain : Option Step → List Step → List Link
  | _, [] => []
  | none, s :: rest => linkChain (some s) rest
  | some prev, s :: rest => mkLink prev s :: linkChain (some s) rest

/-- An input of a transaction: the previous output it consumes
(spec §6 Chain Data Provider contract). -/
structure TxInput where
  prevTxid : String
  prevIndex : Nat
deriving DecidableEq

/-- A decoded transaction: the list of previous outputs it consumes. -/
structure ChainTx where
  inputs : List TxInput
deriving DecidableEq

/-- Modelled from the spec (§3 Edge, §6 provider contract; the chain-data
source is an external collaborator, not in `src/`): `parent` was consumed to
help create `child`'s owning transaction iff the provider lists `parent`
among the inputs of `child`'s transaction. -/
def isParentOf (prov : String → Option ChainTx) (child parent : OutputRef) : Bool :=
  match prov child.txid with
  | some tx => tx.inputs.any fun i => i.prevTxid == parent.txid && i.prevIndex == parent.index
  | none => false

/-- Boolean test that consecutive steps of a stream stand in a relation `R`
(used for "each newly received step funds the previous one"). -/
def chainB (R : Step → Step → Bool) : List Step → Bool
  | [] => true
  | [_] => true
  | a :: b :: rest => R a b && chainB R (b :: rest)

/-- Modelled from the spec (§3 Node): a node emitted by the Traversal Engine,
with discovery depth and cumulative confidence. -/
structure EngineNode where
  ref : OutputRef
  depth : Nat
  conf : ℚ
deriving DecidableEq

/-- Modelled from the spec (§3 Edge, §6 `EdgeAdded`): a traversed edge from
the child node to the newly discovered parent output. -/
structure EngineEdge where
  child : OutputRef
  parent : OutputRef
deriving DecidableEq

/-- Modelled from the spec (§3 Frontier Entry): an unresolved output with its
would-be depth and cumulative confidence, together with the already-emitted
child node whose expansion discovered it (`none` for the root). -/
structure FrontierEntry where
  ref : OutputRef
  depth : Nat
  conf : ℚ
  origin : Option EngineNode
deriving DecidableEq

/-- Modelled from the spec (§3 TraceSession, §4.2): the per-session engine
state.  The visited-set is the key set of the emitted nodes
(`OutputRef → Node`). -/
structure EngineState where
  depthLimit : Nat
  confCutoff : ℚ
  frontier : List FrontierEntry
  nodes : List EngineNode
  edges : List EngineEdge

/-- Modelled from the spec (§4.2 tie-break): `f` is strictly preferred to `e`
when it has higher cumulative confidence, or equal confidence and smaller
depth; full ties keep the earlier entry (FIFO). -/
def betterEntry (f e : FrontierEntry) : Bool :=
  decide (e.conf < f.conf) || (decide (f.conf = e.conf) && decide (f.depth < e.depth))

/-- Select the best frontier entry in the spec's order, returning it and the
remaining entries.  Scanning left to right and replacing the current best
only on strict preference keeps FIFO order among ties. -/
def pickBest : FrontierEntry → List FrontierEntry → FrontierEntry × List FrontierEntry
  | e, [] => (e, [])
  | e, f :: fs =>
    if betterEntry f e then
      ((pickBest f fs).1, e :: (pickBest f fs).2)
    else
      ((pickBest e fs).1, f :: (pickBest e fs).2)

/-- The visited-set of the session: OutputRefs of all nodes emitted so far. -/
def visitedRefs (s : EngineState) : List OutputRef :=
  s.nodes.map EngineNode.ref

/-- Modelled from the spec (§4.2): push one new frontier entry per candidate,
with multiplied confidence and incremented depth; the new entries record the
just-expanded node as their originating child. -/
def expandEntry (gen : OutputRef → List (ℚ × OutputRef)) (e : FrontierEntry) :
    List FrontierEntry :=
  (gen e.ref).map fun c => ⟨c.2, e.depth + 1, e.conf * c.1, some ⟨e.ref, e.depth, e.conf⟩⟩

/-- Emit the Node event for a popped frontier entry, and the child → parent
Edge event through which it was discovered, replacing the frontier. -/
def emitNode (s : EngineState) (e : FrontierEntry) (newFrontier : List FrontierEntry) :
    EngineState :=
  { s with
    frontier := newFrontier
    nodes := s.nodes ++ [⟨e.ref, e.depth, e.conf⟩]
    edges := s.edges ++
      (match e.origin with
       | some c => [⟨c.ref, e.ref⟩]
       | none => []) }

/-- Modelled from the spec (§4.2 Traversal Engine loop; the engine lives in
the Python backend, not in `src/`): pop the best frontier entry; skip it if
already visited; if depth exceeds the limit or confidence falls below the
cutoff, record it as a terminal leaf without expanding; otherwise emit the
node and push one entry per candidate.  Fuel bounds the loop. -/
def runEngine (gen : OutputRef → List (ℚ × OutputRef)) : Nat → EngineState → EngineState
  | 0, s => s
  | Nat.succ fuel, s =>
    match s.frontier with
    | [] => s
    | f :: fs =>
      if (pickBest f fs).1.ref ∈ visitedRefs s then
        runEngine gen fuel { s with frontier := (pickBest f fs).2 }
      else if s.depthLimit < (pickBest f fs).1.depth ∨ (pickBest f fs).1.conf < s.confCutoff then
        runEngine gen fuel (emitNode s (pickBest f fs).1 (pickBest f fs).2)
      else
        runEngine gen fuel
          (emitNode s (pickBest f fs).1 ((pickBest f fs).2 ++ expandEntry gen (pickBest f fs).1))

/-- Modelled from the spec (§4.2): on start, seed the frontier with the root
at confidence 1, depth 0. -/
def initEngineState (root : OutputRef) (depthLimit : Nat) (confCutoff : ℚ) : EngineState :=
  ⟨depthLimit, confCutoff, [⟨root, 0, 1, none⟩], [], []⟩

/-- View an engine node as the `trace_update` step payload sent to the
frontend. -/
def nodeStep (n : EngineNode) : Step :=
  ⟨n.ref.txid, n.ref.index⟩

/-- Invariant of the modelled engine: emitted node refs are distinct (the
visited-set dedup), confidences are nonnegative, every frontier entry agrees
with its originating child node (depth one more, confidence no larger), and
every emitted edge connects emitted nodes with depth +1 and non-increasing
confidence. -/
def EngineInv (s : EngineState) : Prop :=
  ((s.nodes.map EngineNode.ref).Nodup) ∧
  (∀ n ∈ s.nodes, 0 ≤ n.conf) ∧
  (∀ e ∈ s.frontier, 0 ≤ e.conf ∧
     ∀ c, e.origin = some c → c ∈ s.nodes ∧ e.depth = c.depth + 1 ∧ e.conf ≤ c.conf) ∧
  (∀ ed ∈ s.edges, ∃ nc ∈ s.nodes, ∃ np ∈ s.nodes,
     nc.ref = ed.child ∧ np.ref = ed.parent ∧
     np.depth = nc.depth + 1 ∧ np.conf ≤ nc.conf)

/-- The pieces of `App.js` component state touched by the stop / trace-update
flow. -/
structure AppState where
  treeData : TreeData
  isTracing : Bool
  status : String
  errorMsg : String
deriving DecidableEq

/-- The socket and UI events relevant to a running trace in `App.js`. -/
inductive AppEvent where
  | traceUpd (step : Step)
  | stopClick
  | traceComplete
  | traceErr (msg : String)
deriving DecidableEq

/-- One event handled as in `App.js`: the `trace_update` handler appends to
`treeData` unconditionally (it does not consult `isTracing`); `stopTrace`
only clears `isTracing` and sets the status; `trace_complete` and
`trace_error` clear `isTracing` and set status / error. -/
def appStep (st : AppState) : AppEvent → AppState
  | .traceUpd s => { st with treeData := traceUpdate st.treeData s }
  | .stopClick => { st with isTracing := false, status := "Trace stopped by user" }
  | .traceComplete => { st with isTracing := false, status := "Trace completed successfully" }
  | .traceErr m =>
      { st with errorMsg := "Trace failed: " ++ m, isTracing := false, status := "Trace failed" }

/-- Run a list of events through the `App.js` handlers. -/
def runAppFrom (st : AppState) (evs : List AppEvent) : AppState :=
  evs.foldl appStep st

/-- The component state right after a successful `startTrace`: results reset
and `isTracing` set. -/
def appStartState : AppState :=
  ⟨⟨[], []⟩, true, "Starting trace...", ""⟩

/-- List-level prefix test embedding JavaScript `String.startsWith`. -/
def strStarts (s p : String) : Bool :=
  p.data.isPrefixOf s.data

/-- `getAddressType` from `src/frontend/src/AddressModal.js` (lines 54-61):
classify an address (possibly absent) by its leading characters; a missing or
empty address is falsy in JavaScript and yields "unknown". -/
def getAddressType : Option String → String
  | none => "unknown"
  | some a =>
    if a.data = [] then "unknown"
    else if strStarts a "1" then "p2pkh"
    else if strStarts a "3" then "p2sh"
    else if strStarts a "bc1q" then "p2wpkh"
    else if strStarts a "bc1p" then "p2tr"
    else "unknown"

/-- JavaScript whitespace characters removed by `String.trim`. -/
def isSpaceChar (c : Char) : Bool :=
  c == ' ' || c == '\t' || c == '\n' || c == '\r'

/-- Embedding of JavaScript `String.trim`: drop whitespace at both ends. -/
def jsTrim (s : String) : String :=
  ⟨((s.data.dropWhile isSpaceChar).reverse.dropWhile isSpaceChar).reverse⟩

/-- Hex-digit test of the `validateTxid` character class `[a-fA-F0-9]`. -/
def isHexChar (c : Char) : Bool :=
  ('a' ≤ c && c ≤ 'f') || ('A' ≤ c && c ≤ 'F') || ('0' ≤ c && c ≤ '9')

/-- `validateTxid` from `App.js` (lines 162-166 of the enhanced version): a
valid TXID is exactly 64 hexadecimal characters. -/
def validateTxid (s : String) : Bool :=
  s.data.length == 64 && s.data.all isHexChar

/-- The `vout` component state of the enhanced `App.js`: `useState(0)` holds
a number until the input's `onChange` replaces it with the raw string
`e.target.value` (line 264). -/
inductive VoutVal where
  | num (n : Int)
  | str (s : String)
deriving DecidableEq

/-- Decimal-digit test. -/
def isDigitChar (c : Char) : Bool :=
  '0' ≤ c && c ≤ '9'

/-- Numeric value of one decimal digit. -/
def digitVal (c : Char) : Nat :=
  c.toNat - '0'.toNat

/-- Numeric value of a list of decimal digits. -/
def digitsToNat (l : List Char) : Nat :=
  l.foldl (fun a c => 10 * a + digitVal c) 0

/-- The leading run of decimal digits of a character list, `none` when there
is none (the digit-consuming core of JavaScript `parseInt`). -/
def leadingDigitsVal (l : List Char) : Option Nat :=
  if l.takeWhile isDigitChar = [] then none
  else some (digitsToNat (l.takeWhile isDigitChar))

/-- JavaScript `ToNumber` on an unsigned decimal numeral (digits with an
optional fraction part, as a number input yields); `none` models `NaN`. -/
def jsUnsignedDec (l : List Char) : Option ℚ :=
  match l.dropWhile isDigitChar with
  | [] =>
    if l.takeWhile isDigitChar = [] then none
    else some (digitsToNat (l.takeWhile isDigitChar) : ℚ)
  | c :: fs =>
    if c = '.' ∧ fs.all isDigitChar = true ∧ ¬(l.takeWhile isDigitChar = [] ∧ fs = []) then
      some ((digitsToNat (l.takeWhile isDigitChar) : ℚ) +
        (digitsToNat fs : ℚ) / (10 : ℚ) ^ fs.length)
    else none

/-- JavaScript `ToNumber` of a character list as coerced by the `<`
comparison: the empty string converts to 0, a signed decimal numeral to its
value, anything else to `NaN` (modelled as `none`). -/
def jsToNumberList : List Char → Option ℚ
  | [] => some 0
  | c :: rest =>
    if c = '-' then (jsUnsignedDec rest).map (fun q => -q)
    else if c = '+' then jsUnsignedDec rest
    else jsUnsignedDec (c :: rest)

/-- JavaScript `ToNumber` of a string. -/
def jsStrToNumber (s : String) : Option ℚ :=
  jsToNumberList s.data

/-- The source guard `vout < 0` (line 179): a number compares directly; a
string is coerced with `ToNumber`, and a `NaN` comparison is false. -/
def jsLtZero : VoutVal → Bool
  | .num n => decide (n < 0)
  | .str s =>
    match jsStrToNumber s with
    | some q => decide (q < 0)
    | none => false

/-- JavaScript `parseInt` on a character list: an optional sign followed by
leading digits; `none` models `NaN` (in particular `parseInt('')`). -/
def jsParseIntList : List Char → Option Int
  | [] => none
  | c :: rest =>
    if c = '-' then (leadingDigitsVal rest).map (fun m => -(m : Int))
    else if c = '+' then (leadingDigitsVal rest).map (fun m => (m : Int))
    else (leadingDigitsVal (c :: rest)).map (fun m => (m : Int))

/-- JavaScript `parseInt` on a string. -/
def jsParseIntStr (s : String) : Option Int :=
  jsParseIntList s.data

/-- The source's `parseInt(vout)` (line 208): an integer number parses to
itself, a string via `jsParseIntStr`; `none` models `NaN`. -/
def jsParseInt : VoutVal → Option Int
  | .num n => some n
  | .str s => jsParseIntStr s

/-- The payload of the `trace_utxo` request emitted by the enhanced
`App.js`; `vout = none` models a `NaN` output index. -/
structure TraceRequest where
  txid : String
  vout : Option Int
  trace_depth : Int
  circularDetection : Bool
deriving DecidableEq

/-- Result of clicking Trace UTXO: either an error message shown to the user
and no request, or the emitted `trace_utxo` request. -/
inductive StartResult where
  | err (msg : String)
  | emit (req : TraceRequest)
deriving DecidableEq

/-- Default trace depth: `useState(20)` in the enhanced `App.js` (line 11). -/
def defaultTraceDepth : Int := 20

/-- `startTrace` from the enhanced `App.js` (src/unnamed/part_001, lines
168-212): the validations in source order, then the `trace_utxo` emission.
The `vout` guard and the emitted value use the JavaScript coercions of the
source (`vout < 0`, `parseInt(vout)`). -/
def startTrace (txid : String) (vout : VoutVal) (traceDepth : Int)
    (circ : Bool) (connected : Bool) : StartResult :=
  if (jsTrim txid).data = [] then .err "Please enter a transaction ID (TXID)"
  else if validateTxid (jsTrim txid) = false then
    .err "Invalid TXID format. TXID must be a 64-character hexadecimal string."
  else if jsLtZero vout = true then .err "VOUT must be a non-negative integer"
  else if traceDepth < 1 ∨ traceDepth > 100 then
    .err "Trace depth must be between 1 and 100 transactions"
  else if connected = false then
    .err "Not connected to backend. Please wait for connection or refresh the page."
  else .emit ⟨jsTrim txid, jsParseInt vout, traceDepth, circ⟩

/-- Modelled from the spec (§4.4) and the `src/README.md` Scoring Factors
table: the eight factor weights of the risk scorer, in table order. -/
def riskWeights : List ℚ :=
  [15/100, 20/100, 15/100, 10/100, 15/100, 10/100, 10/100, 5/100]

/-- Dot product of a weight vector and a factor vector. -/
def dotQ : List ℚ → List ℚ → ℚ
  | [], _ => 0
  | _ :: _, [] => 0
  | w :: ws, x :: xs => w * x + dotQ ws xs

/-- Clamp a rational to the unit interval. -/
def clamp01 (x : ℚ) : ℚ := min 1 (max 0 x)

/-- Modelled from the spec (§4.4; the scorer lives in the backend
`circular_detector.py`, not in `src/`): the cycle risk score is the weighted
sum of the normalized factors, clamped to the unit interval. -/
def cycleRiskScore (factors : List ℚ) : ℚ :=
  clamp01 (dotQ riskWeights factors)

/-- A circular-pattern record as consumed by `TreeGraph.js`
(`circular_pattern_detected` payload). -/
structure CircularPattern where
  transactions : List Step
  risk_score : ℚ
  cycle_id : String
  pattern_type : String
deriving DecidableEq

/-- The node-level circular info computed by `getNodeCircularInfo`. -/
structure CircularInfo where
  isCircular : Bool
  riskScore : ℚ
  cycleId : Option String
  patternType : Option String
deriving DecidableEq

/-- Whether a pattern's member transactions contain the node id
(`pattern.transactions?.some(tx => txid:vout === nodeId)`). -/
def patContains (p : CircularPattern) (nodeId : String) : Bool :=
  p.transactions.any fun tx => stepKey tx == nodeId

/-- `getNodeCircularInfo` from `src/frontend/src/TreeGraph.js` (lines 47-62):
scan the detected patterns in order and return the info of the first one
containing the node; the default info otherwise. -/
def getNodeCircularInfo (patterns : List CircularPattern) (nodeId : String) : CircularInfo :=
  match patterns with
  | [] => ⟨false, 0, none, none⟩
  | p :: rest =>
    if patContains p nodeId then ⟨true, p.risk_score, some p.cycle_id, some p.pattern_type⟩
    else getNodeCircularInfo rest nodeId

/-- The claim's node-level risk, stated from the spec's words for comparison
with the source: the maximum risk over all detected cycles containing the
node, 0 if none. -/
def specNodeRiskMax (patterns : List CircularPattern) (nodeId : String) : ℚ :=
  ((patterns.filter fun p => patContains p nodeId).map CircularPattern.risk_score).foldr max 0

/-- Per-address statistics kept by the `addresses_update` handler of the
enhanced `App.js` (lines 92-109). -/
structure AddrStats where
  frequency : Nat
  first_depth : Nat
  is_circular : Bool
  risk : ℚ
deriving DecidableEq

/-- An `addresses_update` event payload. -/
structure AddrEvent where
  addresses : List String
  depth : Nat
  is_circular : Bool
  circular_risk : ℚ

/-- One `forEach` iteration of the `addresses_update` handler: create the
entry on first sight, otherwise bump frequency, accumulate `is_circular`
with `||`, and take the max of the old and incoming risk. -/
def applyAddr (ev : AddrEvent) (stats : String → Option AddrStats) (addr : String) :
    String → Option AddrStats :=
  fun a =>
    if a = addr then
      match stats addr with
      | none => some ⟨1, ev.depth, ev.is_circular, ev.circular_risk⟩
      | some old =>
          some ⟨old.frequency + 1, old.first_depth,
                old.is_circular || ev.is_circular, max old.risk ev.circular_risk⟩
    else stats a

/-- The whole `addresses_update` handler: fold over the event's addresses. -/
def applyAddrEvent (stats : String → Option AddrStats) (ev : AddrEvent) :
    String → Option AddrStats :=
  ev.addresses.foldl (applyAddr ev) stats

/-- A session's sequence of `addresses_update` events applied in order. -/
def runAddrEvents (stats : String → Option AddrStats) (events : List AddrEvent) :
    String → Option AddrStats :=
  events.foldl applyAddrEvent stats

/-- Total number of occurrences of an address across a list of events. -/
def countInEvents (events : List AddrEvent) (addr : String) : Nat :=
  (events.map fun e => e.addresses.count addr).sum

/-- Demo root output `aa:0`. -/
def refAA : OutputRef := ⟨"aa", 0⟩

/-- Demo parent output `bb:0`. -/
def refBB : OutputRef := ⟨"bb", 0⟩

/-- Demo parent output `cc:0`. -/
def refCC : OutputRef := ⟨"cc", 0⟩

/-- Demo candidate generator with a single full-confidence parent for the
root, nothing elsewhere (an ordinary one-input transaction). -/
def gen1 : OutputRef → List (ℚ × OutputRef) :=
  fun r => if r = refAA then [(1, refBB)] else []

/-- Demo candidate generator where the root is funded by two equally
plausible inputs (a mixing-style split, spec Scenario B shape). -/
def gen2 : OutputRef → List (ℚ × OutputRef) :=
  fun r => if r = refAA then [(1, refBB), (1, refCC)] else []

/-- Demo chain data: transaction `aa` consumes `bb:0` and `cc:0`; `bb` and
`cc` are coinbase-like transactions with no inputs. -/
def prov3 : String → Option ChainTx :=
  fun t =>
    if t = "aa" then some ⟨[⟨"bb", 0⟩, ⟨"cc", 0⟩]⟩
    else if t = "bb" then some ⟨[]⟩
    else if t = "cc" then some ⟨[]⟩
    else none

/-- The node stream a branching traversal emits for the demo: the root
followed by its two parents, in best-first order. -/
def c3Steps : List Step := [⟨"aa", 0⟩, ⟨"bb", 0⟩, ⟨"cc", 0⟩]

/-- A linear backward chain stream for the demo provider: `bb:0` was consumed
to create transaction `aa`. -/
def c3LinSteps : List Step := [⟨"aa", 0⟩, ⟨"bb", 0⟩]

/-- A 64-character hexadecimal demo TXID. -/
def tx64 : String :=
  "aaaaaaaaaaaaaaaaaaaaaaaaaaaaaaaaaaaaaaaaaaaaaaaaaaaaaaaaaaaaaaaa"

/-- Demo circular patterns: both contain node `nn:0`; the earlier one carries
the smaller risk. -/
def demoPatterns : List CircularPattern :=
  [⟨[⟨"nn", 0⟩], 0, "cyc1", "closed_loop"⟩, ⟨[⟨"nn", 0⟩], 1, "cyc2", "closed_loop"⟩]

/-- Demo factor vector for the risk scorer, each factor in the unit
interval. -/
def demoFactors : List ℚ := [1, 0, 1, 0, 1, 0, 1, 0]

/-- Demo initial per-address statistics: one known address. -/
def demoStats : String → Option AddrStats :=
  fun a => if a = "addr1" then some ⟨2, 0, false, 0⟩ else none

/-- Demo `addresses_update` event sequence touching `addr1` twice. -/
def demoEvents : List AddrEvent :=
  [⟨["addr1", "addr2"], 1, true, 1⟩, ⟨["addr1"], 2, false, 0⟩]

theorem startTrace_emit_iff (t : String) (v : VoutVal) (d : Int) (c conn : Bool)
    (req : TraceRequest) :
    startTrace t v d c conn = .emit req ↔
      ((jsTrim t).data ≠ [] ∧ validateTxid (jsTrim t) = true ∧ jsLtZero v = false ∧
        1 ≤ d ∧ d ≤ 100 ∧ conn = true ∧ req = ⟨jsTrim t, jsParseInt v, d, c⟩) := by
  unfold startTrace
  split_ifs with h1 h2 h3 h4 h5
  · simp [h1]
  · simp [h2]
  · simp [h3]
  · simp
    rintro - - - hd1 hd2
    rcases h4 with h | h <;> omega
  · simp [h5]
  · have h2' : validateTxid (jsTrim t) = true := by
      cases hb : validateTxid (jsTrim t) with
      | false => exact absurd hb h2
      | true => rfl
    have h3' : jsLtZero v = false := by
      cases hb : jsLtZero v with
      | false => rfl
      | true => exact absurd hb h3
    have h5' : conn = true := by
      cases hb : conn with
      | false => exact absurd hb h5
      | true => rfl
    push_neg at h4
    simp only [StartResult.emit.injEq]
    constructor
    · intro h
      exact ⟨h1, h2', h3', h4.1, by omega, h5', h.symm⟩
    · intro h
      exact h.2.2.2.2.2.2.symm

theorem startTrace_err_of_depth (t : String) (v : VoutVal) (d : Int) (c conn : Bool)
    (h : d < 1 ∨ 100 < d) : ∃ m, startTrace t v d c conn = .err m := by
  unfold startTrace
  split_ifs <;> exact ⟨_, rfl⟩

theorem startTrace_err_of_root (t : String) (v : VoutVal) (d : Int) (c conn : Bool)
    (h : validateTxid (jsTrim t) = false ∨ jsLtZero v = true) :
    ∃ m, startTrace t v d c conn = .err m := by
  unfold startTrace
  split_ifs with h1 h2 h3 h4 h5
  · exact ⟨_, rfl⟩
  · exact ⟨_, rfl⟩
  · exact ⟨_, rfl⟩
  · exact ⟨_, rfl⟩
  · exact ⟨_, rfl⟩
  · exfalso
    rcases h with h | h
    · exact h2 h
    · exact h3 h

/-- C4: a `trace_utxo` request is emitted only when the depth limit lies in
[1, 100]; any other depth is rejected with an error message before a session
starts; the depth limit defaults to 20. -/
theorem c4_depth_validation :
    ∀ (txid : String) (vout : VoutVal) (traceDepth : Int) (circ connected : Bool),
      defaultTraceDepth = 20 ∧
      (∀ req, startTrace txid vout traceDepth circ connected = .emit req →
        1 ≤ traceDepth ∧ traceDepth ≤ 100 ∧ req.trace_depth = traceDepth) ∧
      ((traceDepth < 1 ∨ 100 < traceDepth) →
        ∃ m, startTrace txid vout traceDepth circ connected = .err m) := by
  intro t v d c conn
  refine ⟨rfl, ?_, startTrace_err_of_depth t v d c conn⟩
  intro req h
  rw [startTrace_emit_iff] at h
  obtain ⟨-, -, -, hd1, hd2, -, hreq⟩ := h
  exact ⟨hd1, hd2, by rw [hreq]⟩

/-- C4 witness: depth 200 is rejected with an error for a well-formed TXID. -/
theorem c4_witness : ∃ m, startTrace tx64 (.num 0) 200 true true = .err m :=
  (c4_depth_validation tx64 (.num 0) 200 true true).2.2 (Or.inr (by norm_num))

theorem takeWhile_all_digits (l : List Char) (h : l.all isDigitChar = true) :
    l.takeWhile isDigitChar = l := by
  induction l with
  | nil => rfl
  | cons c cs ih =>
    simp only [List.all_cons, Bool.and_eq_true] at h
    simp [List.takeWhile, h.1, ih h.2]

theorem dropWhile_all_digits (l : List Char) (h : l.all isDigitChar = true) :
    l.dropWhile isDigitChar = [] := by
  induction l with
  | nil => rfl
  | cons c cs ih =>
    simp only [List.all_cons, Bool.and_eq_true] at h
    simp [List.dropWhile, h.1, ih h.2]

theorem jsUnsignedDec_digits (l : List Char) (hne : l ≠ [])
    (h : l.all isDigitChar = true) :
    jsUnsignedDec l = some (digitsToNat l : ℚ) := by
  unfold jsUnsignedDec
  rw [dropWhile_all_digits l h, takeWhile_all_digits l h]
  simp [hne]

theorem leadingDigitsVal_digits (l : List Char) (hne : l ≠ [])
    (h : l.all isDigitChar = true) :
    leadingDigitsVal l = some (digitsToNat l) := by
  unfold leadingDigitsVal
  rw [takeWhile_all_digits l h]
  simp [hne]

theorem digit_ne_sign (c : Char) (h : isDigitChar c = true) : c ≠ '-' ∧ c ≠ '+' := by
  refine ⟨?_, ?_⟩ <;> intro hc <;> subst hc <;> exact absurd h (by decide)

theorem jsParseIntList_digits (ds : List Char) (hne : ds ≠ [])
    (h : ds.all isDigitChar = true) :
    jsParseIntList ds = some (digitsToNat ds : Int) := by
  cases ds with
  | nil => exact absurd rfl hne
  | cons c cs =>
    have hc : isDigitChar c = true := by
      have h' := h
      simp only [List.all_cons, Bool.and_eq_true] at h'
      exact h'.1
    obtain ⟨hm, hp⟩ := digit_ne_sign c hc
    simp only [jsParseIntList]
    rw [if_neg hm, if_neg hp, leadingDigitsVal_digits (c :: cs) (by simp) h]
    rfl

theorem jsLtZero_neg_digits (ds : List Char) (h : ds.all isDigitChar = true)
    (hpos : 0 < digitsToNat ds) :
    jsLtZero (.str ⟨'-' :: ds⟩) = true := by
  have hne : ds ≠ [] := by
    intro h0
    subst h0
    simp [digitsToNat] at hpos
  have h1 : jsStrToNumber ⟨'-' :: ds⟩ = some (-(digitsToNat ds : ℚ)) := by
    show jsToNumberList ('-' :: ds) = _
    simp only [jsToNumberList, if_true]
    rw [jsUnsignedDec_digits ds hne h]
    rfl
  have h2 : -(digitsToNat ds : ℚ) < 0 := by
    rw [neg_lt_zero]
    exact_mod_cast hpos
  simp only [jsLtZero]
  rw [h1]
  simp [h2]

/-- C5 counterexample: with a valid 64-hex TXID and an empty vout field (the
raw value of a cleared number input), the guard `vout < 0` coerces the empty
string to 0 and passes, `parseInt('')` is `NaN`, and the request is emitted
with an invalid vout instead of being rejected with an error. -/
theorem c5_cex :
    startTrace tx64 (.str "") 20 true true = .emit ⟨jsTrim tx64, none, 20, true⟩ ∧
    jsParseInt (.str "") = none ∧
    jsLtZero (.str "") = false := by
  refine ⟨by decide, rfl, by decide⟩

/-- C5 amended: a request is emitted only when the trimmed txid is exactly 64
hexadecimal characters — otherwise an error is reported and nothing is
emitted — and only when the JavaScript comparison `vout < 0` is false, the
emitted vout being `parseInt(vout)`.  A numeric vout and a digit-string vout
yield a non-negative emitted index, and a negative integer string is
rejected; but an empty vout field passes the guard and the request is
emitted with an invalid `NaN` vout rather than rejected. -/
theorem c5_amended_root_validation :
    ∀ (txid : String) (vout : VoutVal) (traceDepth : Int) (circ connected : Bool),
      (∀ req, startTrace txid vout traceDepth circ connected = .emit req →
        validateTxid req.txid = true ∧ req.txid.data.length = 64 ∧
        req.txid.data.all isHexChar = true ∧
        jsLtZero vout = false ∧ req.vout = jsParseInt vout) ∧
      ((validateTxid (jsTrim txid) = false ∨ jsLtZero vout = true) →
        ∃ m, startTrace txid vout traceDepth circ connected = .err m) ∧
      (∀ n : Int, ∀ req,
        startTrace txid (.num n) traceDepth circ connected = .emit req →
        req.vout = some n ∧ 0 ≤ n) ∧
      (∀ ds : List Char, ds ≠ [] → ds.all isDigitChar = true → ∀ req,
        startTrace txid (.str ⟨ds⟩) traceDepth circ connected = .emit req →
        req.vout = some (digitsToNat ds : Int) ∧ (0 : Int) ≤ (digitsToNat ds : Int)) ∧
      (∀ ds : List Char, ds.all isDigitChar = true → 0 < digitsToNat ds →
        ∃ m, startTrace txid (.str ⟨'-' :: ds⟩) traceDepth circ connected = .err m) := by
  intro t v d c conn
  refine ⟨?_, startTrace_err_of_root t v d c conn, ?_, ?_, ?_⟩
  · intro req h
    rw [startTrace_emit_iff] at h
    obtain ⟨-, hval, hlt, -, -, -, hreq⟩ := h
    subst hreq
    have hlen : (jsTrim t).data.length = 64 ∧ (jsTrim t).data.all isHexChar = true := by
      simpa [validateTxid] using hval
    exact ⟨hval, hlen.1, hlen.2, hlt, rfl⟩
  · intro n req h
    rw [startTrace_emit_iff] at h
    obtain ⟨-, -, hlt, -, -, -, hreq⟩ := h
    subst hreq
    refine ⟨rfl, ?_⟩
    have hn : ¬(n < 0) := by simpa [jsLtZero] using hlt
    omega
  · intro ds hne hdig req h
    rw [startTrace_emit_iff] at h
    obtain ⟨-, -, -, -, -, -, hreq⟩ := h
    subst hreq
    refine ⟨?_, Int.natCast_nonneg _⟩
    show jsParseIntList ds = some (digitsToNat ds : Int)
    exact jsParseIntList_digits ds hne hdig
  · intro ds hdig hpos
    exact startTrace_err_of_root t _ d c conn (Or.inr (jsLtZero_neg_digits ds hdig hpos))

/-- C5 witness for the amended claim: for the digit-string vout "42" the
emitted request carries the non-negative integer value 42. -/
theorem c5_witness :
    (⟨jsTrim tx64, jsParseInt (.str ⟨['4', '2']⟩), 20, true⟩ : TraceRequest).vout =
      some (digitsToNat ['4', '2'] : Int) ∧
    (0 : Int) ≤ (digitsToNat ['4', '2'] : Int) :=
  (c5_amended_root_validation tx64 (.str ⟨['4', '2']⟩) 20 true true).2.2.2.1
    ['4', '2'] (by decide) (by decide)
    ⟨jsTrim tx64, jsParseInt (.str ⟨['4', '2']⟩), 20, true⟩
    ((startTrace_emit_iff tx64 (.str ⟨['4', '2']⟩) 20 true true _).mpr
      ⟨by decide, by decide, by decide, by norm_num, by norm_num, rfl, rfl⟩)

/-- C6 counterexample: after `stopTrace` (which only clears the UI flag and
sets a status message, and signals nothing to the backend), a further
`trace_update` event is still appended to the session's results. -/
theorem c6_cex :
    (runAppFrom appStartState [.traceUpd ⟨"aa", 0⟩, .stopClick]).isTracing = false ∧
    (runAppFrom appStartState [.traceUpd ⟨"aa", 0⟩, .stopClick]).status =
      "Trace stopped by user" ∧
    (runAppFrom appStartState [.traceUpd ⟨"aa", 0⟩, .stopClick]).treeData.nodes =
      [⟨"aa", 0⟩] ∧
    (runAppFrom appStartState
        [.traceUpd ⟨"aa", 0⟩, .stopClick, .traceUpd ⟨"bb", 0⟩]).treeData.nodes =
      [⟨"aa", 0⟩, ⟨"bb", 0⟩] := by
  refine ⟨rfl, rfl, by decide, by decide⟩

/-- C6 amended: stop only flips the tracing flag and sets the stop status;
already-received results are retained (never retracted, for any event); but a
`trace_update` event arriving after stop is still appended — stop does not
prevent further Node events. -/
theorem c6_amended_stop :
    ∀ (st : AppState) (s : Step) (evs : List AppEvent),
      (appStep st .stopClick).treeData = st.treeData ∧
      (appStep st .stopClick).isTracing = false ∧
      (appStep st .stopClick).status = "Trace stopped by user" ∧
      (appStep st (.traceUpd s)).treeData.nodes = st.treeData.nodes ++ [s] ∧
      ∃ t, (runAppFrom st evs).treeData.nodes = st.treeData.nodes ++ t := by
  intro st s evs
  refine ⟨rfl, rfl, rfl, rfl, ?_⟩
  induction evs generalizing st with
  | nil => exact ⟨[], by simp [runAppFrom]⟩
  | cons e rest ih =>
    have hstep : ∃ d, (appStep st e).treeData.nodes = st.treeData.nodes ++ d := by
      cases e with
      | traceUpd s' => exact ⟨[s'], rfl⟩
      | stopClick => exact ⟨[], (List.append_nil _).symm⟩
      | traceComplete => exact ⟨[], (List.append_nil _).symm⟩
      | traceErr m => exact ⟨[], (List.append_nil _).symm⟩
    obtain ⟨d, hd⟩ := hstep
    obtain ⟨t, ht⟩ := ih (appStep st e)
    refine ⟨d ++ t, ?_⟩
    have hrun : runAppFrom st (e :: rest) = runAppFrom (appStep st e) rest := rfl
    rw [hrun, ht, hd, List.append_assoc]

theorem isPrefixOf_append :
    ∀ (p l : List Char), List.isPrefixOf p l = true → ∃ t, l = p ++ t := by
  intro p
  induction p with
  | nil => intro l _; exact ⟨l, rfl⟩
  | cons a as ih =>
    intro l h
    cases l with
    | nil => simp [List.isPrefixOf] at h
    | cons b bs =>
      rw [List.isPrefixOf, Bool.and_eq_true, beq_iff_eq] at h
      obtain ⟨t, ht⟩ := ih bs h.2
      exact ⟨t, by simp [ht, h.1]⟩

theorem strStarts_data (s p : String) (h : strStarts s p = true) :
    ∃ t, s.data = p.data ++ t := by
  unfold strStarts at h
  exact isPrefixOf_append p.data s.data h

/-- C9: the address-type classifier of `AddressModal.js` is total and
deterministic with range in the five type strings; every address starting
with "1" is p2pkh, with "3" p2sh, with "bc1q" p2wpkh, with "bc1p" p2tr; a
missing or empty address and every other address are "unknown". -/
theorem c9_address_type :
    (∀ a : Option String,
      getAddressType a = "p2pkh" ∨ getAddressType a = "p2sh" ∨
      getAddressType a = "p2wpkh" ∨ getAddressType a = "p2tr" ∨
      getAddressType a = "unknown") ∧
    getAddressType none = "unknown" ∧
    getAddressType (some "") = "unknown" ∧
    (∀ s : String,
      (strStarts s "1" = true → getAddressType (some s) = "p2pkh") ∧
      (strStarts s "3" = true → getAddressType (some s) = "p2sh") ∧
      (strStarts s "bc1q" = true → getAddressType (some s) = "p2wpkh") ∧
      (strStarts s "bc1p" = true → getAddressType (some s) = "p2tr") ∧
      (strStarts s "1" = false → strStarts s "3" = false → strStarts s "bc1q" = false →
        strStarts s "bc1p" = false → getAddressType (some s) = "unknown")) := by
  refine ⟨?_, rfl, rfl, ?_⟩
  · intro a
    cases a with
    | none => tauto
    | some s =>
      simp only [getAddressType]
      split_ifs <;> tauto
  · intro s
    refine ⟨?_, ?_, ?_, ?_, ?_⟩
    · intro h1
      obtain ⟨t, ht⟩ := strStarts_data s "1" h1
      simp only [show ("1" : String).data = ['1'] from rfl, List.singleton_append] at ht
      simp [getAddressType, ht, h1]
    · intro h3
      obtain ⟨t, ht⟩ := strStarts_data s "3" h3
      simp only [show ("3" : String).data = ['3'] from rfl, List.singleton_append] at ht
      have h1f : strStarts s "1" = false := by
        unfold strStarts
        rw [ht]
        rfl
      simp [getAddressType, ht, h1f, h3]
    · intro hq
      obtain ⟨t, ht⟩ := strStarts_data s "bc1q" hq
      simp only [show ("bc1q" : String).data = ['b', 'c', '1', 'q'] from rfl,
        List.cons_append, List.nil_append] at ht
      have h1f : strStarts s "1" = false := by
        unfold strStarts
        rw [ht]
        rfl
      have h3f : strStarts s "3" = false := by
        unfold strStarts
        rw [ht]
        rfl
      simp [getAddressType, ht, h1f, h3f, hq]
    · intro hp
      obtain ⟨t, ht⟩ := strStarts_data s "bc1p" hp
      simp only [show ("bc1p" : String).data = ['b', 'c', '1', 'p'] from rfl,
        List.cons_append, List.nil_append] at ht
      have h1f : strStarts s "1" = false := by
        unfold strStarts
        rw [ht]
        rfl
      have h3f : strStarts s "3" = false := by
        unfold strStarts
        rw [ht]
        rfl
      have hqf : strStarts s "bc1q" = false := by
        unfold strStarts
        rw [ht]
        rfl
      simp [getAddressType, ht, h1f, h3f, hqf, hp]
    · intro h1 h3 hq hp
      simp [getAddressType, h1, h3, hq, hp]

/-- C9 witness: concrete classifications through the theorem. -/
theorem c9_witness :
    getAddressType (some "1abc") = "p2pkh" ∧ getAddressType (some "bc1pxyz") = "p2tr" :=
  ⟨(c9_address_type.2.2.2 "1abc").1 (by decide),
   (c9_address_type.2.2.2 "bc1pxyz").2.2.2.1 (by decide)⟩

/-- C7 counterexample: node `nn:0` belongs to two detected cycles with risks
0 and 1; `getNodeCircularInfo` reports the first cycle's risk 0, while the
maximum over all containing cycles is 1. -/
theorem c7_cex :
    (getNodeCircularInfo demoPatterns (stepKey ⟨"nn", 0⟩)).riskScore = 0 ∧
    specNodeRiskMax demoPatterns (stepKey ⟨"nn", 0⟩) = 1 ∧
    (0 : ℚ) ≠ 1 := by
  refine ⟨by decide, by decide, by norm_num⟩

/-- C7 amended: the node-level circular info is taken from the first detected
cycle (in list order) containing the node — its risk score, cycle id and
pattern kind — and is the zero-risk, non-circular default when no detected
cycle contains the node. -/
theorem c7_amended_first_match :
    ∀ (ps : List CircularPattern) (k : String),
      ((List.find? (fun p => patContains p k) ps) = none →
        getNodeCircularInfo ps k = ⟨false, 0, none, none⟩) ∧
      (∀ p, (List.find? (fun p => patContains p k) ps) = some p →
        getNodeCircularInfo ps k =
          ⟨true, p.risk_score, some p.cycle_id, some p.pattern_type⟩) := by
  intro ps k
  induction ps with
  | nil => exact ⟨fun _ => rfl, fun p h => by simp [List.find?] at h⟩
  | cons q rest ih =>
    cases hq : patContains q k with
    | true =>
      constructor
      · intro h
        simp [List.find?, hq] at h
      · intro p h
        simp only [List.find?, hq] at h
        obtain rfl : q = p := by simpa using h
        simp [getNodeCircularInfo, hq]
    | false =>
      constructor
      · intro h
        simp only [List.find?, hq] at h
        simp [getNodeCircularInfo, hq, ih.1 h]
      · intro p h
        simp only [List.find?, hq] at h
        simp [getNodeCircularInfo, hq, ih.2 p h]

/-- C7 witness: for the demo cycle list, the first containing cycle's record
is returned. -/
theorem c7_witness :
    getNodeCircularInfo demoPatterns (stepKey ⟨"nn", 0⟩) =
      ⟨true, 0, some "cyc1", some "closed_loop"⟩ :=
  (c7_amended_first_match demoPatterns (stepKey ⟨"nn", 0⟩)).2
    ⟨[⟨"nn", 0⟩], 0, "cyc1", "closed_loop"⟩ (by decide)

theorem dotQ_bounds :
    ∀ (ws xs : List ℚ), (∀ w ∈ ws, 0 ≤ w) → (∀ x ∈ xs, 0 ≤ x ∧ x ≤ 1) →
      0 ≤ dotQ ws xs ∧ dotQ ws xs ≤ ws.sum := by
  intro ws
  induction ws with
  | nil => intro xs _ _; simp [dotQ]
  | cons w ws ih =>
    intro xs hw hx
    cases xs with
    | nil =>
      refine ⟨le_refl 0, ?_⟩
      have hs : 0 ≤ (w :: ws).sum := List.sum_nonneg hw
      simpa [dotQ] using hs
    | cons x xs =>
      have hw0 : 0 ≤ w := hw w (by simp)
      have hws : ∀ u ∈ ws, 0 ≤ u := fun u hu => hw u (by simp [hu])
      have hx0 := hx x (by simp)
      have hxs : ∀ u ∈ xs, 0 ≤ u ∧ u ≤ 1 := fun u hu => hx u (by simp [hu])
      obtain ⟨ih1, ih2⟩ := ih xs hws hxs
      constructor
      · have hmul : 0 ≤ w * x := mul_nonneg hw0 hx0.1
        simpa [dotQ] using add_nonneg hmul ih1
      · calc dotQ (w :: ws) (x :: xs) = w * x + dotQ ws xs := rfl
        _ ≤ w + ws.sum := add_le_add (mul_le_of_le_one_right hw0 hx0.2) ih2
        _ = (w :: ws).sum := (List.sum_cons).symm

theorem riskWeights_facts :
    riskWeights.sum = 1 ∧ (∀ w ∈ riskWeights, 0 ≤ w) ∧ riskWeights.length = 8 := by
  refine ⟨by norm_num [riskWeights], ?_, by norm_num [riskWeights]⟩
  intro w hw
  simp only [riskWeights, List.mem_cons, List.not_mem_nil, or_false] at hw
  rcases hw with h | h | h | h | h | h | h | h <;> rw [h] <;> norm_num

/-- C8: the risk scorer's eight weights are exactly as documented and sum to
1; the cycle risk score always lies in the unit interval; and for factor
vectors normalized to the unit interval the clamp is the identity, so the
score is exactly the weighted sum. -/
theorem c8_cycle_risk_bounds :
    riskWeights.sum = 1 ∧ riskWeights.length = 8 ∧
    (∀ factors : List ℚ, 0 ≤ cycleRiskScore factors ∧ cycleRiskScore factors ≤ 1) ∧
    (∀ factors : List ℚ, (∀ x ∈ factors, 0 ≤ x ∧ x ≤ 1) →
      cycleRiskScore factors = dotQ riskWeights factors) := by
  obtain ⟨hsum, hnn, hlen⟩ := riskWeights_facts
  refine ⟨hsum, hlen, ?_, ?_⟩
  · intro fs
    constructor
    · exact le_min (by norm_num) (le_max_left 0 _)
    · exact min_le_left _ _
  · intro fs hf
    obtain ⟨h0, h1⟩ := dotQ_bounds riskWeights fs hnn hf
    unfold cycleRiskScore clamp01
    rw [max_eq_right h0, min_eq_right (by rw [hsum] at h1; exact h1)]

/-- C8 witness: for a concrete normalized factor vector, the score is the
unclamped weighted sum. -/
theorem c8_witness : cycleRiskScore demoFactors = dotQ riskWeights demoFactors :=
  c8_cycle_risk_bounds.2.2.2 demoFactors (by
    intro x hx
    simp only [demoFactors, List.mem_cons, List.not_mem_nil, or_false] at hx
    rcases hx with h | h | h | h | h | h | h | h <;> rw [h] <;> norm_num)

theorem applyAddr_ne (ev : AddrEvent) (stats : String → Option AddrStats)
    (a addr : String) (h : addr ≠ a) : applyAddr ev stats a addr = stats addr := by
  simp [applyAddr, h]

theorem applyList_some (ev : AddrEvent) :
    ∀ (addrs : List String) (stats : String → Option AddrStats) (addr : String)
      (old : AddrStats), stats addr = some old →
      ∃ new, (addrs.foldl (applyAddr ev) stats) addr = some new ∧
        new.frequency = old.frequency + addrs.count addr ∧
        new.first_depth = old.first_depth ∧
        new.is_circular =
          (if 0 < addrs.count addr then old.is_circular || ev.is_circular
           else old.is_circular) ∧
        new.risk =
          (if 0 < addrs.count addr then max old.risk ev.circular_risk else old.risk) := by
  intro addrs
  induction addrs with
  | nil =>
    intro stats addr old hold
    exact ⟨old, hold, by simp, rfl, by simp, by simp⟩
  | cons a rest ih =>
    intro stats addr old hold
    by_cases ha : a = addr
    · subst ha
      have hmid : (applyAddr ev stats a) a =
          some ⟨old.frequency + 1, old.first_depth,
                old.is_circular || ev.is_circular, max old.risk ev.circular_risk⟩ := by
        simp [applyAddr, hold]
      obtain ⟨new, hnew, hfreq, hfd, hcirc, hrisk⟩ := ih (applyAddr ev stats a) a _ hmid
      refine ⟨new, hnew, ?_, hfd, ?_, ?_⟩
      · simp at hfreq
        simp only [List.count_cons_self]
        omega
      · rw [hcirc]
        simp only [List.count_cons_self]
        by_cases hc : 0 < rest.count a
        · simp [hc, Bool.or_assoc]
        · simp [hc]
      · rw [hrisk]
        simp only [List.count_cons_self]
        by_cases hc : 0 < rest.count a
        · simp [hc, max_assoc]
        · simp [hc]
    · have hmid : (applyAddr ev stats a) addr = some old := by
        rw [applyAddr_ne ev stats a addr (fun hh => ha hh.symm)]
        exact hold
      obtain ⟨new, hnew, hfreq, hfd, hcirc, hrisk⟩ := ih (applyAddr ev stats a) addr old hmid
      have hcount : (a :: rest).count addr = rest.count addr := by
        rw [List.count_cons_of_ne (fun hh => ha hh.symm)]
      exact ⟨new, hnew, by rw [hfreq, hcount], hfd, by rw [hcirc, hcount], by rw [hrisk, hcount]⟩

theorem applyList_none (ev : AddrEvent) :
    ∀ (addrs : List String) (stats : String → Option AddrStats) (addr : String),
      stats addr = none →
      ((addrs.count addr = 0 → (addrs.foldl (applyAddr ev) stats) addr = none) ∧
       (0 < addrs.count addr →
         ∃ new, (addrs.foldl (applyAddr ev) stats) addr = some new ∧
           new.frequency = addrs.count addr ∧
           new.first_depth = ev.depth ∧
           new.is_circular = ev.is_circular ∧
           new.risk = ev.circular_risk)) := by
  intro addrs
  induction addrs with
  | nil =>
    intro stats addr hnone
    exact ⟨fun _ => hnone, fun h => by simp at h⟩
  | cons a rest ih =>
    intro stats addr hnone
    by_cases ha : a = addr
    · subst ha
      have hmid : (applyAddr ev stats a) a =
          some ⟨1, ev.depth, ev.is_circular, ev.circular_risk⟩ := by
        simp [applyAddr, hnone]
      obtain ⟨new, hnew, hfreq, hfd, hcirc, hrisk⟩ :=
        applyList_some ev rest (applyAddr ev stats a) a _ hmid
      constructor
      · intro h
        simp [List.count_cons_self] at h
      · intro _
        refine ⟨new, hnew, ?_, hfd, ?_, ?_⟩
        · simp at hfreq
          simp only [List.count_cons_self]
          omega
        · rw [hcirc]
          by_cases hc : 0 < rest.count a <;> simp [hc]
        · rw [hrisk]
          by_cases hc : 0 < rest.count a <;> simp [hc]
    · have hmid : (applyAddr ev stats a) addr = none := by
        rw [applyAddr_ne ev stats a addr (fun hh => ha hh.symm)]
        exact hnone
      have hcount : (a :: rest).count addr = rest.count addr := by
        rw [List.count_cons_of_ne (fun hh => ha hh.symm)]
      obtain ⟨ihz, ihp⟩ := ih (applyAddr ev stats a) addr hmid
      exact ⟨fun h => ihz (by rw [hcount] at h; exact h),
             fun h => by rw [hcount]; exact ihp (by rw [hcount] at h; exact h)⟩

theorem applyEvent_some (stats : String → Option AddrStats) (ev : AddrEvent)
    (addr : String) (old : AddrStats) (hold : stats addr = some old) :
    ∃ new, applyAddrEvent stats ev addr = some new ∧
      new.frequency = old.frequency + ev.addresses.count addr ∧
      old.risk ≤ new.risk ∧
      (old.is_circular = true → new.is_circular = true) := by
  obtain ⟨new, hnew, hfreq, -, hcirc, hrisk⟩ :=
    applyList_some ev ev.addresses stats addr old hold
  refine ⟨new, hnew, hfreq, ?_, ?_⟩
  · rw [hrisk]
    by_cases hc : 0 < ev.addresses.count addr
    · simp [hc, le_max_left]
    · simp [hc]
  · intro h
    rw [hcirc, h]
    by_cases hc : 0 < ev.addresses.count addr <;> simp [hc]

theorem runAddr_some :
    ∀ (events : List AddrEvent) (stats : String → Option AddrStats) (addr : String)
      (old : AddrStats), stats addr = some old →
      ∃ new, runAddrEvents stats events addr = some new ∧
        new.frequency = old.frequency + countInEvents events addr ∧
        old.risk ≤ new.risk ∧
        (old.is_circular = true → new.is_circular = true) := by
  intro events
  induction events with
  | nil =>
    intro stats addr old hold
    exact ⟨old, hold, by simp [countInEvents], le_refl _, fun h => h⟩
  | cons e rest ih =>
    intro stats addr old hold
    obtain ⟨mid, hmid, hf1, hr1, hc1⟩ := applyEvent_some stats e addr old hold
    obtain ⟨new, hnew, hf2, hr2, hc2⟩ := ih (applyAddrEvent stats e) addr mid hmid
    refine ⟨new, hnew, ?_, le_trans hr1 hr2, fun h => hc2 (hc1 h)⟩
    rw [hf2, hf1]
    simp [countInEvents]
    omega

theorem countInEvents_cons (e : AddrEvent) (rest : List AddrEvent) (addr : String) :
    countInEvents (e :: rest) addr = e.addresses.count addr + countInEvents rest addr := by
  simp [countInEvents]

theorem runAddr_none :
    ∀ (events : List AddrEvent) (stats : String → Option AddrStats) (addr : String),
      stats addr = none → 0 < countInEvents events addr →
      ∃ new, runAddrEvents stats events addr = some new ∧
        new.frequency = countInEvents events addr := by
  intro events
  induction events with
  | nil =>
    intro stats addr _ h
    simp [countInEvents] at h
  | cons e rest ih =>
    intro stats addr hnone hpos
    by_cases hc : 0 < e.addresses.count addr
    · obtain ⟨mid, hmid, hfreq, -, -, -⟩ := (applyList_none e e.addresses stats addr hnone).2 hc
      obtain ⟨new, hnew, hf2, -, -⟩ := runAddr_some rest (applyAddrEvent stats e) addr mid hmid
      refine ⟨new, hnew, ?_⟩
      rw [hf2, hfreq, countInEvents_cons]
    · have hz : e.addresses.count addr = 0 := by omega
      have hmid : applyAddrEvent stats e addr = none :=
        (applyList_none e e.addresses stats addr hnone).1 hz
      have hpos' : 0 < countInEvents rest addr := by
        rw [countInEvents_cons, hz] at hpos
        simpa using hpos
      obtain ⟨new, hnew, hf⟩ := ih (applyAddrEvent stats e) addr hmid hpos'
      refine ⟨new, hnew, ?_⟩
      rw [hf, countInEvents_cons, hz]
      simp

/-- C10: per-address statistics are monotone across any sequence of
`addresses_update` events: for an address already recorded, the risk never
decreases, the circular flag never reverts from true to false, and the
frequency grows by exactly the number of occurrences of the address in the
events; for a fresh address the frequency ends up exactly its number of
occurrences; and within one event the risk is updated to the maximum of the
old value and the incoming `circular_risk`. -/
theorem c10_addr_stats :
    ∀ (stats : String → Option AddrStats) (events : List AddrEvent) (addr : String),
      (∀ old, stats addr = some old →
        ∃ new, runAddrEvents stats events addr = some new ∧
          old.risk ≤ new.risk ∧
          (old.is_circular = true → new.is_circular = true) ∧
          new.frequency = old.frequency + countInEvents events addr) ∧
      (stats addr = none → 0 < countInEvents events addr →
        ∃ new, runAddrEvents stats events addr = some new ∧
          new.frequency = countInEvents events addr) ∧
      (∀ ev old, stats addr = some old → 0 < ev.addresses.count addr →
        ∃ new, applyAddrEvent stats ev addr = some new ∧
          new.risk = max old.risk ev.circular_risk) := by
  intro stats events addr
  refine ⟨?_, runAddr_none events stats addr, ?_⟩
  · intro old hold
    obtain ⟨new, hnew, hf, hr, hc⟩ := runAddr_some events stats addr old hold
    exact ⟨new, hnew, hr, hc, hf⟩
  · intro ev old hold hc
    obtain ⟨new, hnew, -, -, -, hrisk⟩ := applyList_some ev ev.addresses stats addr old hold
    refine ⟨new, hnew, ?_⟩
    rw [hrisk]
    simp [hc]

/-- C10 witness: the statistics of `addr1` across the demo event sequence,
through the theorem. -/
theorem c10_witness :
    ∃ new, runAddrEvents demoStats demoEvents "addr1" = some new ∧
      (0 : ℚ) ≤ new.risk ∧
      ((false : Bool) = true → new.is_circular = true) ∧
      new.frequency = 2 + countInEvents demoEvents "addr1" :=
  (c10_addr_stats demoStats demoEvents "addr1").1 ⟨2, 0, false, 0⟩ (by decide)

theorem nodup_append_singleton {α : Type} (l : List α) (a : α)
    (h : l.Nodup) (ha : a ∉ l) : (l ++ [a]).Nodup := by
  rw [List.nodup_append]
  exact ⟨h, List.nodup_singleton a, by simpa [List.disjoint_singleton] using ha⟩

theorem pickBest_fst_mem :
    ∀ (l : List FrontierEntry) (e : FrontierEntry),
      (pickBest e l).1 = e ∨ (pickBest e l).1 ∈ l := by
  intro l
  induction l with
  | nil => intro e; simp [pickBest]
  | cons f fs ih =>
    intro e
    by_cases hb : betterEntry f e
    · simp only [pickBest, hb, if_true]
      rcases ih f with h | h
      · right; simp [h]
      · right; simp [h]
    · simp only [pickBest, hb, if_false]
      rcases ih e with h | h
      · left; exact h
      · right; simp [h]

theorem pickBest_snd_sub :
    ∀ (l : List FrontierEntry) (e x : FrontierEntry),
      x ∈ (pickBest e l).2 → x = e ∨ x ∈ l := by
  intro l
  induction l with
  | nil => intro e x hx; simp [pickBest] at hx
  | cons f fs ih =>
    intro e x hx
    by_cases hb : betterEntry f e
    · simp only [pickBest, hb] at hx
      simp only [if_true, List.mem_cons] at hx
      rcases hx with h | h
      · left; exact h
      · rcases ih f x h with h' | h'
        · right; simp [h']
        · right; simp [h']
    · simp [pickBest, hb] at hx
      rcases hx with h | h
      · right; simp [h]
      · rcases ih e x h with h' | h'
        · left; exact h'
        · right; simp [h']

theorem visitedRefs_emit (s : EngineState) (e : FrontierEntry)
    (nf : List FrontierEntry) :
    visitedRefs (emitNode s e nf) = visitedRefs s ++ [e.ref] := by
  simp [visitedRefs, emitNode]

theorem run_visited_nodup (gen : OutputRef → List (ℚ × OutputRef)) :
    ∀ (fuel : Nat) (s : EngineState),
      (visitedRefs s).Nodup → (visitedRefs (runEngine gen fuel s)).Nodup := by
  intro fuel
  induction fuel with
  | zero => intro s h; simpa [runEngine] using h
  | succ n ih =>
    intro s h
    cases hf : s.frontier with
    | nil => simpa [runEngine, hf] using h
    | cons f fs =>
      simp only [runEngine, hf]
      split_ifs with h1 h2
      · exact ih _ h
      · exact ih _ (by rw [visitedRefs_emit]; exact nodup_append_singleton _ _ h h1)
      · exact ih _ (by rw [visitedRefs_emit]; exact nodup_append_singleton _ _ h h1)

theorem inv_emitNode (gen : OutputRef → List (ℚ × OutputRef))
    (hw : ∀ r c, c ∈ gen r → 0 ≤ c.1 ∧ c.1 ≤ 1)
    (s : EngineState) (e : FrontierEntry) (newF : List FrontierEntry)
    (hinv : EngineInv s) (he : e ∈ s.frontier) (hnv : e.ref ∉ visitedRefs s)
    (hNF : ∀ x ∈ newF, x ∈ s.frontier ∨ x ∈ expandEntry gen e) :
    EngineInv (emitNode s e newF) := by
  obtain ⟨hnodup, hconf, hfr, hedge⟩ := hinv
  have he' := hfr e he
  refine ⟨?_, ?_, ?_, ?_⟩
  · show ((s.nodes ++ [(⟨e.ref, e.depth, e.conf⟩ : EngineNode)]).map EngineNode.ref).Nodup
    rw [List.map_append]
    exact nodup_append_singleton _ _ hnodup hnv
  · intro n hn
    rcases List.mem_append.mp hn with h | h
    · exact hconf n h
    · obtain rfl : n = ⟨e.ref, e.depth, e.conf⟩ := by simpa using h
      exact he'.1
  · intro x hx
    rcases hNF x hx with hxf | hxe
    · obtain ⟨hx0, hxo⟩ := hfr x hxf
      refine ⟨hx0, fun c hc => ?_⟩
      obtain ⟨hcm, hcd, hcc⟩ := hxo c hc
      exact ⟨List.mem_append_left _ hcm, hcd, hcc⟩
    · simp only [expandEntry, List.mem_map] at hxe
      obtain ⟨cand, hcand, rfl⟩ := hxe
      obtain ⟨hw0, hw1⟩ := hw e.ref cand hcand
      refine ⟨mul_nonneg he'.1 hw0, fun c hc => ?_⟩
      obtain rfl : (⟨e.ref, e.depth, e.conf⟩ : EngineNode) = c := by simpa using hc
      exact ⟨List.mem_append_right _ (by simp), rfl,
        mul_le_of_le_one_right he'.1 hw1⟩
  · intro ed hed
    simp only [emitNode] at hed ⊢
    rcases List.mem_append.mp hed with h | h
    · obtain ⟨nc, hnc, np, hnp, hcr, hpr, hd, hcc⟩ := hedge ed h
      exact ⟨nc, List.mem_append_left _ hnc, np, List.mem_append_left _ hnp,
        hcr, hpr, hd, hcc⟩
    · cases ho : e.origin with
      | none => rw [ho] at h; simp at h
      | some c =>
        rw [ho] at h
        obtain rfl : ed = (⟨c.ref, e.ref⟩ : EngineEdge) := by simpa using h
        obtain ⟨hcm, hcd, hcc⟩ := he'.2 c ho
        exact ⟨c, List.mem_append_left _ hcm,
          ⟨e.ref, e.depth, e.conf⟩, List.mem_append_right _ (by simp),
          rfl, rfl, by simpa using hcd, hcc⟩

theorem inv_run (gen : OutputRef → List (ℚ × OutputRef))
    (hw : ∀ r c, c ∈ gen r → 0 ≤ c.1 ∧ c.1 ≤ 1) :
    ∀ (fuel : Nat) (s : EngineState), EngineInv s → EngineInv (runEngine gen fuel s) := by
  intro fuel
  induction fuel with
  | zero => intro s h; simpa [runEngine] using h
  | succ n ih =>
    intro s h
    cases hf : s.frontier with
    | nil => simpa [runEngine, hf] using h
    | cons f fs =>
      have hbm : (pickBest f fs).1 ∈ s.frontier := by
        rw [hf]
        rcases pickBest_fst_mem fs f with h' | h'
        · simp [h']
        · simp [h']
      have hrs : ∀ x ∈ (pickBest f fs).2, x ∈ s.frontier := by
        intro x hx
        rw [hf]
        rcases pickBest_snd_sub fs f x hx with h' | h'
        · simp [h']
        · simp [h']
      simp only [runEngine, hf]
      split_ifs with h1 h2
      · refine ih _ ?_
        obtain ⟨ha, hb, hc, hd⟩ := h
        exact ⟨ha, hb, fun x hx => hc x (hrs x hx), hd⟩
      · exact ih _ (inv_emitNode gen hw s _ _ h hbm h1 (fun x hx => Or.inl (hrs x hx)))
      · refine ih _ (inv_emitNode gen hw s _ _ h hbm h1 ?_)
        intro x hx
        rcases List.mem_append.mp hx with h' | h'
        · exact Or.inl (hrs x h')
        · exact Or.inr h'

theorem foldl_traceUpdate :
    ∀ (steps : List Step) (acc : TreeData),
      steps.foldl traceUpdate acc =
        ⟨acc.nodes ++ steps, acc.links ++ linkChain acc.nodes.getLast? steps⟩ := by
  intro steps
  induction steps with
  | nil => intro acc; simp [linkChain]
  | cons s rest ih =>
    intro acc
    rw [List.foldl_cons, ih]
    have hlast : (traceUpdate acc s).nodes.getLast? = some s := by
      simp [traceUpdate]
    rw [hlast]
    cases hl : acc.nodes.getLast? with
    | none =>
      simp [traceUpdate, hl, linkChain, TreeData.mk.injEq, List.append_assoc]
    | some p =>
      simp [traceUpdate, hl, linkChain, TreeData.mk.injEq, List.append_assoc]

theorem processTrace_nodes (steps : List Step) : (processTrace steps).nodes = steps := by
  rw [processTrace, foldl_traceUpdate]
  simp

theorem processTrace_links (steps : List Step) :
    (processTrace steps).links = linkChain none steps := by
  rw [processTrace, foldl_traceUpdate]
  simp

/-- C2: in the composed system — the spec-modelled engine (whose visited-set
drops duplicates) feeding the `trace_update` fold of `App.js` — no
`(txid, vout)` pair ever produces two distinct nodes in the trace graph, for
every generator, root, limits and fuel. -/
theorem c2_output_dedup :
    ∀ (gen : OutputRef → List (ℚ × OutputRef)) (root : OutputRef) (dl : Nat) (cc : ℚ)
      (fuel : Nat),
      ((processTrace
          (((runEngine gen fuel (initEngineState root dl cc)).nodes).map nodeStep)).nodes.map
        stepPairKey).Nodup := by
  intro gen root dl cc fuel
  rw [processTrace_nodes]
  have h0 : (visitedRefs (initEngineState root dl cc)).Nodup := by
    simp [initEngineState, visitedRefs]
  have h := run_visited_nodup gen fuel _ h0
  have hmap : ((runEngine gen fuel (initEngineState root dl cc)).nodes.map nodeStep).map
        stepPairKey =
      ((runEngine gen fuel (initEngineState root dl cc)).nodes.map EngineNode.ref).map
        (fun r => (r.txid, r.index)) := by
    rw [List.map_map, List.map_map]
    rfl
  rw [hmap]
  refine List.Nodup.map ?_ h
  intro r1 r2 hr
  cases r1
  cases r2
  simpa using hr

/-- C1: in the spec-modelled engine, for every traversed edge recorded in a
run, every emitted parent node has discovery depth exactly one greater than
the child node's depth and cumulative confidence no larger than the child's,
provided every candidate weight lies in the unit interval. -/
theorem c1_edge_depth_confidence :
    ∀ (gen : OutputRef → List (ℚ × OutputRef)),
      (∀ r c, c ∈ gen r → 0 ≤ c.1 ∧ c.1 ≤ 1) →
      ∀ (root : OutputRef) (dl : Nat) (cc : ℚ) (fuel : Nat),
      ∀ ed ∈ (runEngine gen fuel (initEngineState root dl cc)).edges,
      ∀ nc ∈ (runEngine gen fuel (initEngineState root dl cc)).nodes,
      ∀ np ∈ (runEngine gen fuel (initEngineState root dl cc)).nodes,
        nc.ref = ed.child → np.ref = ed.parent →
        np.depth = nc.depth + 1 ∧ np.conf ≤ nc.conf := by
  intro gen hw root dl cc fuel ed hed nc hnc np hnp hc hp
  have hinv0 : EngineInv (initEngineState root dl cc) := by
    refine ⟨by simp [initEngineState], by simp [initEngineState], ?_,
      by simp [initEngineState]⟩
    intro e he
    simp only [initEngineState, List.mem_singleton] at he
    subst he
    refine ⟨by norm_num, fun c hc => ?_⟩
    simp at hc
  obtain ⟨hnodup, -, -, hedge⟩ := inv_run gen hw fuel _ hinv0
  obtain ⟨nc', hnc', np', hnp', hcr, hpr, hdep, hcle⟩ := hedge ed hed
  have e1 : nc = nc' := List.inj_on_of_nodup_map hnodup hnc hnc' (by rw [hc, hcr])
  have e2 : np = np' := List.inj_on_of_nodup_map hnodup hnp hnp' (by rw [hp, hpr])
  rw [e1, e2]
  exact ⟨hdep, hcle⟩

theorem gen1_weights : ∀ r c, c ∈ gen1 r → 0 ≤ c.1 ∧ c.1 ≤ 1 := by
  intro r c hc
  unfold gen1 at hc
  split at hc
  · obtain rfl : c = ((1 : ℚ), refBB) := by simpa using hc
    norm_num
  · simp at hc

theorem c1_run_eval :
    runEngine gen1 3 (initEngineState refAA 20 0) =
      ⟨20, 0, [], [⟨refAA, 0, 1⟩, ⟨refBB, 1, 1⟩], [⟨refAA, refBB⟩]⟩ := by
  have hne : ("bb" : String) ≠ "aa" := by decide
  norm_num [runEngine, initEngineState, pickBest, betterEntry, visitedRefs, emitNode,
    expandEntry, gen1, refAA, refBB, hne, OutputRef.mk.injEq]

/-- C1 witness: in a concrete run with one full-confidence candidate, the
edge from `aa:0` to its parent `bb:0` relates nodes of depths 0 and 1 and
non-increasing confidence. -/
theorem c1_witness :
    (⟨refBB, 1, 1⟩ : EngineNode).depth = (⟨refAA, 0, 1⟩ : EngineNode).depth + 1 ∧
    (⟨refBB, 1, 1⟩ : EngineNode).conf ≤ (⟨refAA, 0, 1⟩ : EngineNode).conf :=
  c1_edge_depth_confidence gen1 gen1_weights refAA 20 0 3
    ⟨refAA, refBB⟩ (by rw [c1_run_eval]; simp)
    ⟨refAA, 0, 1⟩ (by rw [c1_run_eval]; simp)
    ⟨refBB, 1, 1⟩ (by rw [c1_run_eval]; simp)
    rfl rfl

theorem linkChain_rel (R : Step → Step → Bool) :
    ∀ (rest : List Step) (prev : Step), chainB R (prev :: rest) = true →
      ∀ l ∈ linkChain (some prev) rest, ∃ a b, l = mkLink a b ∧ R a b = true := by
  intro rest
  induction rest with
  | nil => intro prev _ l hl; simp [linkChain] at hl
  | cons s rest' ih =>
    intro prev hch l hl
    simp only [chainB, Bool.and_eq_true] at hch
    simp only [linkChain] at hl
    rcases List.mem_cons.mp hl with h | h
    · exact ⟨prev, s, h, hch.1⟩
    · exact ih s hch.2 l h

theorem linkChain_targets :
    ∀ (rest : List Step) (prev : Step),
      (linkChain (some prev) rest).map Link.target = rest.map stepKey := by
  intro rest
  induction rest with
  | nil => intro prev; simp [linkChain]
  | cons s rest' ih =>
    intro prev
    simp only [linkChain, List.map_cons]
    rw [ih s]
    simp [mkLink]

/-- C3 amended: every Edge the `trace_update` handler adds links the
immediately previously received node to the newly received node; when the
stream is a linear backward chain in which each newly received output was
consumed to create the previous node's transaction, every edge is indeed a
child → parent link, and when the stream carries no duplicate `txid:vout`
key, the graph never contains two edges with the same (child, parent) pair. -/
theorem c3_amended_links :
    ∀ (prov : String → Option ChainTx) (steps : List Step),
      chainB (fun a b => isParentOf prov (stepRef a) (stepRef b)) steps = true →
      (steps.map stepKey).Nodup →
      (∀ l ∈ (processTrace steps).links,
        ∃ a b, l = mkLink a b ∧ isParentOf prov (stepRef a) (stepRef b) = true) ∧
      ((processTrace steps).links.map (fun l => (l.source, l.target))).Nodup := by
  intro prov steps hch hnd
  rw [processTrace_links]
  cases steps with
  | nil => exact ⟨fun l hl => by simp [linkChain] at hl, by simp [linkChain]⟩
  | cons s0 rest =>
    have hlc : linkChain (none : Option Step) (s0 :: rest) = linkChain (some s0) rest := rfl
    rw [hlc]
    constructor
    · exact linkChain_rel _ rest s0 hch
    · have hmm : ((linkChain (some s0) rest).map fun l => (l.source, l.target)).map Prod.snd =
          rest.map stepKey := by
        rw [List.map_map]
        exact linkChain_targets rest s0
      have hrest : (rest.map stepKey).Nodup := by
        simp only [List.map_cons] at hnd
        exact (List.nodup_cons.mp hnd).2
      exact List.Nodup.of_map Prod.snd (by rw [hmm]; exact hrest)

theorem c3_run_eval :
    ((runEngine gen2 4 (initEngineState refAA 20 0)).nodes).map nodeStep = c3Steps := by
  have hne1 : ("bb" : String) ≠ "aa" := by decide
  have hne2 : ("cc" : String) ≠ "aa" := by decide
  have hne3 : ("cc" : String) ≠ "bb" := by decide
  norm_num [runEngine, initEngineState, pickBest, betterEntry, visitedRefs, emitNode,
    expandEntry, gen2, refAA, refBB, refCC, nodeStep, c3Steps, hne1, hne2, hne3,
    OutputRef.mk.injEq]

/-- C3 counterexample: for the very node stream the spec's best-first engine
emits when the root has two equally plausible parents (Scenario-B shape), the
handler links the two sibling parents `bb:0 → cc:0`, although output `cc:0`
was not consumed to create transaction `bb` — so not every added edge is a
child → parent link. -/
theorem c3_cex :
    ((runEngine gen2 4 (initEngineState refAA 20 0)).nodes).map nodeStep = c3Steps ∧
    (processTrace c3Steps).links =
      [mkLink ⟨"aa", 0⟩ ⟨"bb", 0⟩, mkLink ⟨"bb", 0⟩ ⟨"cc", 0⟩] ∧
    isParentOf prov3 (stepRef ⟨"bb", 0⟩) (stepRef ⟨"cc", 0⟩) = false ∧
    ((processTrace c3Steps).links.all fun l =>
      c3Steps.any fun a => c3Steps.any fun b =>
        (mkLink a b == l) && isParentOf prov3 (stepRef a) (stepRef b)) = false := by
  refine ⟨c3_run_eval, by decide, by decide, by decide⟩

/-- C3 witness for the amended claim: for a linear backward stream over the
demo chain data, every added edge is a child → parent link and no (child,
parent) pair repeats. -/
theorem c3_witness :
    (∀ l ∈ (processTrace c3LinSteps).links,
      ∃ a b, l = mkLink a b ∧ isParentOf prov3 (stepRef a) (stepRef b) = true) ∧
    ((processTrace c3LinSteps).links.map (fun l => (l.source, l.target))).Nodup :=
  c3_amended_links prov3 c3LinSteps (by decide) (by decide)
